import Mathlib

/-!
Verification development for the arithmetic parser / evaluator core of
qt-func-grapher (src/qt_func_grapher/arithmetic_parser.py).

The Python code is shallowly embedded:
  - tokens are lists of characters (Python strings),
  - the mutable binary tree `_BinaryTreeNode` becomes the inductive
    `BinaryTreeNode`, with a `nil` constructor standing for Python `None`
    children,
  - node references (`current_node`, the `nodes_stack` entries) become paths
    from the root; mutations become functional updates at a path,
  - exceptions (`SyntaxError`, `NameError`, `ValueError`, `KeyError`,
    numpy ufunc `TypeError`) become `Except` errors,
  - IEEE doubles are modelled by exact unnormalized fractions (`Frac`);
    the claims under study only exercise small-integer arithmetic, where
    float64 is exact, plus error behaviour that is value-independent.
    `np.divide` by zero and non-integer `np.power` (inf/nan results in
    numpy, no exception) are given dummy total values, unused by any claim.
-/

/-- A lexical token: Python strings as lists of characters. -/
abbrev Token := List Char

/-- The delimiter characters of the regex r"([\+\-\*\/\^\(\)])" used in
`_tockenize`. -/
def isDelimChar (c : Char) : Bool :=
  c = '+' || c = '-' || c = '*' || c = '/' || c = '^' || c = '(' || c = ')'

/-- `re.split` on the delimiter class, keeping the delimiters as their own
tokens and discarding empty fragments (the `if token != ""` filter).
`acc` holds the characters of the pending fragment, in reverse. -/
def splitGo : List Char → List Char → List Token
  | [], acc => if acc.isEmpty then [] else [acc.reverse]
  | c :: cs, acc =>
    if isDelimChar c then
      (if acc.isEmpty then [] else [acc.reverse]) ++ [c] :: splitGo cs []
    else
      splitGo cs (c :: acc)

/-- The splitting part of `ArithmeticParser._tockenize`:
`self.expr.replace(" ", "")` removes exactly the space character U+0020
(no other whitespace), then the regex split produces the lexemes.
(The call to `_preprocess` made at the end of the Python method is
composed explicitly in `parse` below.) -/
def tockenize (s : List Char) : List Token :=
  splitGo (s.filter (fun c => c ≠ ' ')) []

/-- Exact unnormalized fraction, modelling the Python / numpy float64
values flowing through the parser.  No normalization is performed; the
source never compares floats, and every concrete claim computation stays
on small integers (denominator 1), where float64 arithmetic is exact. -/
structure Frac where
  num : Int
  den : Int
deriving DecidableEq, Repr

instance (n : Nat) : OfNat Frac n := ⟨⟨(OfNat.ofNat n : Int), 1⟩⟩

/-- `np.add` on scalars. -/
def Frac.add (a b : Frac) : Frac := ⟨a.num * b.den + b.num * a.den, a.den * b.den⟩

/-- `np.subtract` on scalars. -/
def Frac.sub (a b : Frac) : Frac := ⟨a.num * b.den - b.num * a.den, a.den * b.den⟩

/-- `np.multiply` on scalars. -/
def Frac.mul (a b : Frac) : Frac := ⟨a.num * b.num, a.den * b.den⟩

/-- `np.divide` on scalars.  Division by zero yields inf/nan in numpy
(without raising); the exact carrier returns a dummy value instead.  No
claim exercises division by zero. -/
def Frac.div (a b : Frac) : Frac :=
  if b.num = 0 then ⟨0, 1⟩
  else if 0 < b.num then ⟨a.num * b.den, a.den * b.num⟩
  else ⟨-(a.num * b.den), a.den * (-b.num)⟩

def Frac.npowAux (a : Frac) (n : Nat) : Frac := ⟨a.num ^ n, a.den ^ n⟩

/-- `np.power` on scalars.  Integer exponents are exact; a non-integer
exponent generally has an irrational value, unrepresentable in an exact
carrier, so a dummy value is returned (numpy would produce a float;
no claim evaluates such a power). -/
def Frac.pow (a e : Frac) : Frac :=
  if e.den = 1 then
    match e.num with
    | .ofNat n => a.npowAux n
    | .negSucc n => Frac.div ⟨1, 1⟩ (a.npowAux (n + 1))
  else ⟨0, 1⟩

/-- Accumulator worker for `digitsToNat`. -/
def digitsToNatGo : List Char → Nat → Nat
  | [], acc => acc
  | c :: cs, acc => digitsToNatGo cs (acc * 10 + (c.toNat - '0'.toNat))

/-- Numeric value of a digit list, most significant first. -/
def digitsToNat (l : List Char) : Nat := digitsToNatGo l 0

/-- Python `float(tk)`, on the common decimal forms: optional surrounding
whitespace, optional sign, digits with an optional fractional part, and an
optional decimal exponent.  (`inf`, `nan` and underscore separators are
accepted by Python but omitted here; no claim depends on them.)
Returns `none` exactly when Python raises `ValueError`. -/
def parseFloat (t : Token) : Option Frac :=
  let s := ((t.dropWhile Char.isWhitespace).reverse.dropWhile Char.isWhitespace).reverse
  let (neg, s1) :=
    match s with
    | '+' :: r => (false, r)
    | '-' :: r => (true, r)
    | r => (false, r)
  let intds := s1.takeWhile Char.isDigit
  let rest1 := s1.dropWhile Char.isDigit
  let (fracds, rest2) :=
    match rest1 with
    | '.' :: r => (r.takeWhile Char.isDigit, r.dropWhile Char.isDigit)
    | r => ([], r)
  if intds.isEmpty && fracds.isEmpty then none
  else
    let mant : Int := Int.ofNat (digitsToNat (intds ++ fracds))
    let mant := if neg then -mant else mant
    let mkVal : Int → Frac := fun e =>
      if 0 ≤ e then ⟨mant * (10 : Int) ^ e.toNat, (10 : Int) ^ fracds.length⟩
      else ⟨mant, (10 : Int) ^ fracds.length * (10 : Int) ^ (-e).toNat⟩
    match rest2 with
    | [] => some (mkVal 0)
    | c :: r =>
      if c = 'e' || c = 'E' then
        let (eneg, r1) :=
          match r with
          | '+' :: r' => (false, r')
          | '-' :: r' => (true, r')
          | r' => (false, r')
        let eds := r1.takeWhile Char.isDigit
        let rest3 := r1.dropWhile Char.isDigit
        if eds.isEmpty || !rest3.isEmpty then none
        else
          let e : Int := Int.ofNat (digitsToNat eds)
          some (mkVal (if eneg then -e else e))
      else none

/-- The error taxonomy of `ArithmeticParser.parse`:
`SyntaxError("Too many closing parantheses")`,
`SyntaxError("Too few closing parantheses")` (raised both by the
normalizer and by the end-of-input stack check),
`NameError(f"Unknown variable (tk)")`, and the `IndexError` Python raises
when the backward scan of `_insertParanthesesAround` starts past the end
of the lexeme list. -/
inductive ParseErr where
  | tooManyClosing
  | tooFewClosing
  | unknownVar (tk : Token)
  | indexError
deriving DecidableEq, Repr

def openT : Token := ['(']
def closeT : Token := [')']

/-- The backward scan of `_insertParanthesesAround` (its first `for` loop):
walks `ptr` from `index - 1` down to `0` with a running count; a `)` adds
one and skips the zero test (`continue`), a `(` subtracts one; at the first
zero test that succeeds, the insertion position `some ptr` is returned.
If the loop exhausts: a nonzero final count means
`SyntaxError("Too many closing parantheses")`; a final count of zero that
was never tested (only reachable through a trailing `continue`) means no
insertion at all (`none`), exactly as in the source. -/
def openScan (lx : List Token) (count : Int) (ptr : Nat) : Except ParseErr (Option Nat) :=
  let t := lx.getD ptr []
  if t = closeT then
    match ptr with
    | 0 => if count + 1 ≠ 0 then .error .tooManyClosing else .ok none
    | q + 1 => openScan lx (count + 1) q
  else
    let c := if t = openT then count - 1 else count
    if c = 0 then .ok (some ptr)
    else
      match ptr with
      | 0 => .error .tooManyClosing
      | q + 1 => openScan lx c q

/-- The forward scan of `_insertParanthesesAround` (its second `for` loop),
structured on the fuel `lx.length - ptr`: a `(` adds one and skips the zero
test, a `)` subtracts one; at the first successful zero test the insertion
position `some ptr` (the source inserts at `ptr + 1`) is returned.  If the
loop exhausts with nonzero count: `SyntaxError("Too few closing
parantheses")`; with a zero count never tested: no insertion (`none`). -/
def closeScanF (lx : List Token) : Int → Nat → Nat → Except ParseErr (Option Nat)
  | count, _, 0 => if count ≠ 0 then .error .tooFewClosing else .ok none
  | count, ptr, fuel + 1 =>
    let t := lx.getD ptr []
    if t = openT then closeScanF lx (count + 1) (ptr + 1) fuel
    else
      let c := if t = closeT then count - 1 else count
      if c = 0 then .ok (some ptr)
      else closeScanF lx c (ptr + 1) fuel

def closeScan (lx : List Token) (count : Int) (ptr : Nat) : Except ParseErr (Option Nat) :=
  closeScanF lx count ptr (lx.length - ptr)

/-- Python `list.insert(i, a)`: positions past the end clamp to an append. -/
def pyInsert (lx : List Token) (i : Nat) (a : Token) : List Token :=
  lx.insertIdx (min i lx.length) a

/-- `ArithmeticParser._insertParanthesesAround(index)` as a function of the
current `self.lexems`.  The opening parenthesis is inserted by the backward
scan (note: when `index = 0` the backward loop body never runs, the count
stays zero and nothing is inserted — as in the source); the closing
parenthesis either is appended when `index + 2` reaches past the end, or is
placed by the forward scan.  The running count is zero on entry to the
forward scan in every non-error case, as in the source.  The backward
loop's first read is `lexems[index - 1]`; if that is out of range Python
raises `IndexError` (guarded here explicitly — later reads only walk
leftwards and stay in range, as does the forward loop). -/
def insertParanthesesAround (lx : List Token) (index : Nat) : Except ParseErr (List Token) :=
  let lx1E : Except ParseErr (List Token) :=
    if index = 0 then .ok lx
    else if lx.length ≤ index - 1 then .error .indexError
    else
      match openScan lx 0 (index - 1) with
      | .error e => .error e
      | .ok (some p) => .ok (pyInsert lx p openT)
      | .ok none => .ok lx
  match lx1E with
  | .error e => .error e
  | .ok lx1 =>
    if lx1.length ≤ index + 2 then .ok (pyInsert lx1 (index + 2) closeT)
    else
      match closeScan lx1 0 (index + 2) with
      | .error e => .error e
      | .ok (some p) => .ok (pyInsert lx1 (p + 1) closeT)
      | .ok none => .ok lx1

/-- `[i for i, el in enumerate(lexems) if p el]`, with `i0` the index of the
head of the remaining list. -/
def opIndices (p : Token → Bool) : List Token → Nat → List Nat
  | [], _ => []
  | t :: ts, i0 => if p t then i0 :: opIndices p ts (i0 + 1) else opIndices p ts (i0 + 1)

/-- One pass of `_preprocess`: the operator indices were recorded before the
pass started; the `i`-th recorded index is looked up shifted by `2 * i`. -/
def passGo : List Token → List Nat → Nat → Except ParseErr (List Token)
  | lx, [], _ => .ok lx
  | lx, idx :: rest, i =>
    match insertParanthesesAround lx (idx + 2 * i) with
    | .error e => .error e
    | .ok lx' => passGo lx' rest (i + 1)

def runPass (p : Token → Bool) (lx : List Token) : Except ParseErr (List Token) :=
  passGo lx (opIndices p lx 0) 0

/-- Membership tests of `_preprocess`: `el == "^"`, `el in ["*", "/"]`,
`el in ["+", "-"]`. -/
def isPowTok (t : Token) : Bool := t = ['^']

def isMulTok (t : Token) : Bool := t = ['*'] || t = ['/']

def isAddTok (t : Token) : Bool := t = ['+'] || t = ['-']

/-- `ArithmeticParser._preprocess`: wrap `^` first, then `*`/`/`, then
`+`/`-`, each pass recording its operator indices before inserting. -/
def preprocess (lx : List Token) : Except ParseErr (List Token) :=
  match runPass isPowTok lx with
  | .error e => .error e
  | .ok a =>
    match runPass isMulTok a with
    | .error e => .error e
    | .ok b => runPass isAddTok b

/-- A node token: Python stores either a string (operator, "x", "=") or the
float produced by `float(tk)`. -/
inductive NTok where
  | sym (s : Token)
  | num (v : Frac)
deriving DecidableEq, Repr

/-- The placeholder token "=" carried by fresh nodes. -/
def eqTok : NTok := .sym ['=']

/-- `_BinaryTreeNode`: a token plus `left` / `right` children; the `nil`
constructor is Python `None`. -/
inductive BinaryTreeNode where
  | nil : BinaryTreeNode
  | mk (token : NTok) (left right : BinaryTreeNode) : BinaryTreeNode
deriving DecidableEq, Repr

/-- `getToken`; on `nil` (never consulted by the source) the placeholder. -/
def getToken : BinaryTreeNode → NTok
  | .nil => eqTok
  | .mk tk _ _ => tk

/-- `getLeft`, with Python `None` as `nil`. -/
def getLeft : BinaryTreeNode → BinaryTreeNode
  | .nil => .nil
  | .mk _ l _ => l

/-- `getRight`, with Python `None` as `nil`. -/
def getRight : BinaryTreeNode → BinaryTreeNode
  | .nil => .nil
  | .mk _ _ r => r

/-- A direction into a child slot. -/
inductive Dir where
  | left
  | right
deriving DecidableEq, Repr

/-- A node reference, modelled as the path from the root.  The stack entries
of `parse` are always ancestors of the current node, so the referenced node
is never detached from the tree and the path stays a faithful stand-in for
the Python object reference. -/
abbrev NodePath := List Dir

/-- Follow a path; `nil` results mean the reference does not exist (never
the case for the paths `parse` manipulates). -/
def getAt : BinaryTreeNode → NodePath → BinaryTreeNode
  | t, [] => t
  | .nil, _ :: _ => .nil
  | .mk _ l _, .left :: p => getAt l p
  | .mk _ _ r, .right :: p => getAt r p

/-- Mutate the node a path points to (functional update). -/
def modifyAt (f : BinaryTreeNode → BinaryTreeNode) : BinaryTreeNode → NodePath → BinaryTreeNode
  | t, [] => f t
  | .nil, _ :: _ => .nil
  | .mk tk l r, .left :: p => .mk tk (modifyAt f l p) r
  | .mk tk l r, .right :: p => .mk tk l (modifyAt f r p)

/-- `setToken` at a path. -/
def setTokenAt (t : BinaryTreeNode) (p : NodePath) (tk : NTok) : BinaryTreeNode :=
  modifyAt (fun n => match n with | .nil => .nil | .mk _ l r => .mk tk l r) t p

/-- `insertLeft` at a path: the left child becomes a fresh leaf node. -/
def insertLeftAt (t : BinaryTreeNode) (p : NodePath) (tk : NTok) : BinaryTreeNode :=
  modifyAt (fun n => match n with | .nil => .nil | .mk t0 _ r => .mk t0 (.mk tk .nil .nil) r) t p

/-- `insertRight` at a path: the right child becomes a fresh leaf node. -/
def insertRightAt (t : BinaryTreeNode) (p : NodePath) (tk : NTok) : BinaryTreeNode :=
  modifyAt (fun n => match n with | .nil => .nil | .mk t0 l _ => .mk t0 l (.mk tk .nil .nil)) t p

/-- The loop state of `ArithmeticParser.parse`: the tree root `ast`, the
current node and the LIFO `nodes_stack` (head = most recently pushed). -/
structure PState where
  ast : BinaryTreeNode
  cur : NodePath
  stack : List NodePath
deriving DecidableEq, Repr

/-- `tk in ["+", "-", "*", "/", "^"]`. -/
def isOpTok (t : Token) : Bool :=
  t = ['+'] || t = ['-'] || t = ['*'] || t = ['/'] || t = ['^']

/-- One iteration of the token loop in `ArithmeticParser.parse`. -/
def parseStep (st : PState) (tk : Token) : Except ParseErr PState :=
  if tk = openT then
    match getLeft (getAt st.ast st.cur) with
    | .nil =>
      .ok ⟨insertLeftAt st.ast st.cur eqTok, st.cur ++ [Dir.left], st.cur :: st.stack⟩
    | .mk _ _ _ =>
      .ok ⟨insertRightAt st.ast st.cur eqTok, st.cur ++ [Dir.right], st.stack⟩
  else if isOpTok tk then
    .ok ⟨insertRightAt (setTokenAt st.ast st.cur (.sym tk)) st.cur eqTok,
         st.cur ++ [Dir.right], st.stack⟩
  else if tk = closeT then
    match st.stack with
    | [] => .ok st
    | p :: rest => .ok ⟨st.ast, p, rest⟩
  else if tk = ['x'] then
    .ok ⟨insertLeftAt st.ast st.cur (.sym tk), st.cur, st.stack⟩
  else
    match parseFloat tk with
    | some v => .ok ⟨insertLeftAt st.ast st.cur (.num v), st.cur, st.stack⟩
    | none => .error (.unknownVar tk)

/-- Initial state: a fresh root `_BinaryTreeNode("=")`, current node at the
root, empty stack. -/
def initState : PState := ⟨.mk eqTok .nil .nil, [], []⟩

/-- The token loop of `parse`. -/
def parseRun : PState → List Token → Except ParseErr PState
  | st, [] => .ok st
  | st, tk :: rest =>
    match parseStep st tk with
    | .error e => .error e
    | .ok st' => parseRun st' rest

/-- Tree construction from a (normalized) token list, including the final
stack check of `parse`. -/
def parseToks (lx : List Token) : Except ParseErr BinaryTreeNode :=
  match parseRun initState lx with
  | .error e => .error e
  | .ok st =>
    match st.stack with
    | _ :: _ => .error .tooFewClosing
    | [] => .ok st.ast

/-- `ArithmeticParser(expression).parse()`: tokenize, normalize, build. -/
def parse (s : List Char) : Except ParseErr BinaryTreeNode :=
  match preprocess (tockenize s) with
  | .error e => .error e
  | .ok lx => parseToks lx

/-- Evaluation-time failures: `ValueError("Missing Operand")`, the
`KeyError` of the `ops[token]` lookup, and the `TypeError` a numpy ufunc
raises on a string operand (or mismatched array lengths). -/
inductive EvalErr where
  | missingOperand
  | keyError (tk : NTok)
  | typeError
deriving DecidableEq, Repr

/-- A value produced by `_BinaryTreeNode.evaluate`: a float scalar, a numpy
array, or (for a childless node holding an operator string) that string. -/
inductive PyVal where
  | num (v : Frac)
  | arr (a : List Frac)
  | str (s : Token)
deriving DecidableEq, Repr

/-- The `ops` dictionary of `evaluate`. -/
def lookupOp (tk : NTok) : Option (Frac → Frac → Frac) :=
  match tk with
  | .sym s =>
    if s = ['+'] then some Frac.add
    else if s = ['-'] then some Frac.sub
    else if s = ['*'] then some Frac.mul
    else if s = ['/'] then some Frac.div
    else if s = ['^'] then some Frac.pow
    else none
  | .num _ => none

/-- Elementwise application of a numpy binary ufunc with scalar/array
broadcasting; a string operand raises `TypeError`. -/
def applyOp (f : Frac → Frac → Frac) : PyVal → PyVal → Except EvalErr PyVal
  | .num a, .num b => .ok (.num (f a b))
  | .num a, .arr b => .ok (.arr (b.map (fun y => f a y)))
  | .arr a, .num b => .ok (.arr (a.map (fun y => f y b)))
  | .arr a, .arr b =>
    if a.length = b.length then .ok (.arr (List.zipWith f a b)) else .error .typeError
  | _, _ => .error .typeError

/-- `_BinaryTreeNode.evaluate(x)`.  Branches in source order: both children
present → `ops[token]` (a failed lookup raises before the children are
evaluated) applied to the children's values; only a left child → its value;
otherwise a childless node (or one with only a right child): a non-"="
token is returned as a value (`x` → the sample array, float → the float,
any other string → that string), and "=" raises
`ValueError("Missing Operand")`.  The `nil` case is unreachable (the source
never calls `evaluate` on `None`). -/
def evaluate (t : BinaryTreeNode) (x : List Frac) : Except EvalErr PyVal :=
  match t with
  | .nil => .error .missingOperand
  | .mk tk l r =>
    match l, r with
    | .mk _ _ _, .mk _ _ _ =>
      match lookupOp tk with
      | none => .error (.keyError tk)
      | some f =>
        match evaluate l x with
        | .error e => .error e
        | .ok a =>
          match evaluate r x with
          | .error e => .error e
          | .ok b => applyOp f a b
    | .mk _ _ _, .nil => evaluate l x
    | .nil, _ =>
      match tk with
      | .num v => .ok (.num v)
      | .sym s =>
        if s = ['='] then .error .missingOperand
        else if s = ['x'] then .ok (.arr x)
        else .ok (.str s)

/-- `_BinaryTreeNode.evaluate` again, this time threading the node through
the recursion and rebuilding it from the parts the source reads.  The
method body contains no assignment to `token` / `left` / `right`, so the
rebuilt node is the input node; proving that equality
(`evaluateS_eq` below) is the frame property of evaluation. -/
def evaluateS (t : BinaryTreeNode) (x : List Frac) :
    Except EvalErr PyVal × BinaryTreeNode :=
  match t with
  | .nil => (.error .missingOperand, .nil)
  | .mk tk l r =>
    match l, r with
    | .mk _ _ _, .mk _ _ _ =>
      match lookupOp tk with
      | none => (.error (.keyError tk), .mk tk l r)
      | some f =>
        let pl := evaluateS l x
        let pr := evaluateS r x
        (match pl.1 with
         | .error e => .error e
         | .ok a =>
           match pr.1 with
           | .error e => .error e
           | .ok b => applyOp f a b,
         .mk tk pl.2 pr.2)
    | .mk _ _ _, .nil =>
      let pl := evaluateS l x
      (pl.1, .mk tk pl.2 r)
    | .nil, _ =>
      ((match tk with
        | .num v => .ok (.num v)
        | .sym s =>
          if s = ['='] then .error .missingOperand
          else if s = ['x'] then .ok (.arr x)
          else .ok (.str s)),
       .mk tk l r)

/-- Tokens that may legally sit on a node with two children: the five
operators (the keys of the `ops` dictionary) or the placeholder "=". -/
def goodTok (tk : NTok) : Bool :=
  (lookupOp tk).isSome || decide (tk = eqTok)

/-- Every node that has both children carries an operator or "=" as its
token.  This is the structural invariant of the trees `parse` builds; it
pins down which token a failing `ops[...]` lookup can see. -/
def treeOK : BinaryTreeNode → Bool
  | .nil => true
  | .mk tk l r =>
    (match l, r with
     | .mk _ _ _, .mk _ _ _ => goodTok tk
     | _, _ => true) && treeOK l && treeOK r

/-- Strict-ancestor relation on node paths. -/
def Anc (p c : NodePath) : Prop := ∃ d q, c = p ++ d :: q

/-- The stack of `parse` is a chain of strict ancestors of the current
node: the head is the most recently pushed node, each further entry a
strict ancestor of the previous one.  This captures the LIFO discipline of
`nodes_stack`, and is what makes the path model faithful to the Python
object references (no stacked node is ever detached from the tree). -/
def ChainOK : List NodePath → NodePath → Prop
  | [], _ => True
  | p :: rest, c => Anc p c ∧ ChainOK rest p

/-- Full loop invariant of `parse`: the tree satisfies `treeOK`, the
current node exists and carries an operator-or-"=" token, likewise every
stacked node, and the stack is an ancestor chain of the current node. -/
def StOK (st : PState) : Prop :=
  treeOK st.ast = true ∧
  (∃ tk l r, getAt st.ast st.cur = .mk tk l r ∧ goodTok tk = true) ∧
  (∀ p ∈ st.stack, ∃ tk l r, getAt st.ast p = .mk tk l r ∧ goodTok tk = true) ∧
  ChainOK st.stack st.cur

/-- The expression tree the source builds for "3 + x * 2": the root
placeholder whose left child is the "+" node; the product is wrapped in an
extra placeholder group produced by the inserted parentheses. -/
def t8tree : BinaryTreeNode :=
  .mk eqTok
    (.mk (.sym ['+'])
      (.mk (.num ⟨3, 1⟩) .nil .nil)
      (.mk eqTok
        (.mk (.sym ['*'])
          (.mk (.sym ['x']) .nil .nil)
          (.mk eqTok (.mk (.num ⟨2, 1⟩) .nil .nil) .nil))
        .nil))
    .nil

theorem getAt_nilT : ∀ (p : NodePath), getAt .nil p = .nil
  | [] => rfl
  | _ :: _ => rfl

theorem getAt_nilPath (t : BinaryTreeNode) : getAt t [] = t := by
  cases t <;> rfl

theorem modifyAt_nilT (f : BinaryTreeNode → BinaryTreeNode) :
    ∀ (p : NodePath), p ≠ [] → modifyAt f .nil p = .nil
  | _ :: _, _ => rfl

theorem modifyAt_nilPath (f : BinaryTreeNode → BinaryTreeNode) (t : BinaryTreeNode) :
    modifyAt f t [] = f t := by
  cases t <;> rfl

theorem getAt_append : ∀ (p q : NodePath) (t : BinaryTreeNode),
    getAt t (p ++ q) = getAt (getAt t p) q
  | [], q, t => by rw [List.nil_append, getAt_nilPath]
  | _ :: _, q, .nil => by rw [getAt_nilT, getAt_nilT, getAt_nilT]
  | d :: p, q, .mk tk l r => by
    cases d
    · exact getAt_append p q l
    · exact getAt_append p q r

theorem modifyAt_append (f : BinaryTreeNode → BinaryTreeNode) :
    ∀ (p q : NodePath) (t : BinaryTreeNode),
    modifyAt f t (p ++ q) = modifyAt (fun s => modifyAt f s q) t p
  | [], q, t => by rw [List.nil_append, modifyAt_nilPath]
  | _ :: _, _, .nil => rfl
  | d :: p, q, .mk tk l r => by
    cases d
    · exact congrArg (fun z => BinaryTreeNode.mk tk z r) (modifyAt_append f p q l)
    · exact congrArg (fun z => BinaryTreeNode.mk tk l z) (modifyAt_append f p q r)

theorem getAt_modifyAt_self (f : BinaryTreeNode → BinaryTreeNode) :
    ∀ (p : NodePath) (t tk l r), getAt t p = .mk tk l r →
      getAt (modifyAt f t p) p = f (.mk tk l r)
  | [], t, tk, l, r, h => by
    rw [getAt_nilPath] at h
    rw [h, modifyAt_nilPath, getAt_nilPath]
  | d :: p, .nil, tk, l, r, h => by rw [getAt_nilT] at h; cases h
  | d :: p, .mk tk0 l0 r0, tk, l, r, h => by
    cases d
    · exact getAt_modifyAt_self f p l0 tk l r h
    · exact getAt_modifyAt_self f p r0 tk l r h

theorem modifyAt_nil_any (f : BinaryTreeNode → BinaryTreeNode) (hnil : f .nil = .nil) :
    ∀ (p : NodePath), modifyAt f .nil p = .nil
  | [] => by rw [modifyAt_nilPath, hnil]
  | _ :: _ => rfl

theorem getAt_modifyAt_gen (g : BinaryTreeNode → BinaryTreeNode) (hg : g .nil = .nil) :
    ∀ (p : NodePath) (t : BinaryTreeNode), getAt (modifyAt g t p) p = g (getAt t p)
  | [], t => by rw [modifyAt_nilPath, getAt_nilPath, getAt_nilPath]
  | d :: p, .nil => by
    rw [modifyAt_nilT g _ (by simp), getAt_nilT, hg]
  | d :: p, .mk tk l r => by
    cases d
    · exact getAt_modifyAt_gen g hg p l
    · exact getAt_modifyAt_gen g hg p r

theorem getAt_modifyAt_anc (f : BinaryTreeNode → BinaryTreeNode)
    (p : NodePath) (d : Dir) (q : NodePath) (t : BinaryTreeNode) :
    getAt (modifyAt f t (p ++ d :: q)) p = modifyAt f (getAt t p) (d :: q) := by
  rw [modifyAt_append f p (d :: q) t]
  exact getAt_modifyAt_gen (fun s => modifyAt f s (d :: q)) rfl p t

theorem treeOK_split (tk : NTok) (l r : BinaryTreeNode) (h : treeOK (.mk tk l r) = true) :
    treeOK l = true ∧ treeOK r = true ∧
      (∀ tk1 a b tk2 c d, l = .mk tk1 a b → r = .mk tk2 c d → goodTok tk = true) := by
  cases l <;> cases r <;> simp [treeOK] at h ⊢ <;> tauto

theorem treeOK_build (tk : NTok) (l r : BinaryTreeNode)
    (hl : treeOK l = true) (hr : treeOK r = true)
    (hcond : ∀ tk1 a b tk2 c d, l = .mk tk1 a b → r = .mk tk2 c d → goodTok tk = true) :
    treeOK (.mk tk l r) = true := by
  cases l <;> cases r <;> simp [treeOK] at hl hr ⊢ <;> tauto

theorem treeOK_modifyAt (f : BinaryTreeNode → BinaryTreeNode) (hnil : f .nil = .nil) :
    ∀ (p : NodePath) (t : BinaryTreeNode), treeOK t = true →
      (∀ tk l r, getAt t p = .mk tk l r → treeOK (.mk tk l r) = true →
        treeOK (f (.mk tk l r)) = true) →
      treeOK (modifyAt f t p) = true
  | [], t, ht, h => by
    rw [modifyAt_nilPath]
    cases t with
    | nil => rw [hnil]; rfl
    | mk tk l r => exact h tk l r (getAt_nilPath _) ht
  | d :: p, .nil, ht, h => by rw [modifyAt_nilT f _ (by simp)]; rfl
  | d :: p, .mk tk l r, ht, h => by
    obtain ⟨hl, hr, hcond⟩ := treeOK_split tk l r ht
    cases d
    case left =>
      show treeOK (.mk tk (modifyAt f l p) r) = true
      have hl' : treeOK (modifyAt f l p) = true := treeOK_modifyAt f hnil p l hl h
      refine treeOK_build tk _ r hl' hr ?_
      intro tk1 a b tk2 c d hm hrm
      cases l with
      | nil => rw [modifyAt_nil_any f hnil] at hm; cases hm
      | mk tkl la lb => exact hcond tkl la lb tk2 c d rfl hrm
    case right =>
      show treeOK (.mk tk l (modifyAt f r p)) = true
      have hr' : treeOK (modifyAt f r p) = true := treeOK_modifyAt f hnil p r hr h
      refine treeOK_build tk l _ hl hr' ?_
      intro tk1 a b tk2 c d hlm hm
      cases r with
      | nil => rw [modifyAt_nil_any f hnil] at hm; cases hm
      | mk tkr ra rb => exact hcond tk1 a b tkr ra rb hlm rfl

theorem anc_snoc {p c : NodePath} (d : Dir) (h : Anc p c) : Anc p (c ++ [d]) := by
  obtain ⟨e, q, rfl⟩ := h
  exact ⟨e, q ++ [d], by simp⟩

theorem anc_self_snoc (c : NodePath) (d : Dir) : Anc c (c ++ [d]) := ⟨d, [], rfl⟩

theorem anc_trans {a b c : NodePath} (h1 : Anc a b) (h2 : Anc b c) : Anc a c := by
  obtain ⟨d1, q1, rfl⟩ := h1
  obtain ⟨d2, q2, rfl⟩ := h2
  exact ⟨d1, q1 ++ d2 :: q2, by simp⟩

theorem chain_snoc {st : List NodePath} {c : NodePath} (d : Dir)
    (h : ChainOK st c) : ChainOK st (c ++ [d]) := by
  cases st with
  | nil => trivial
  | cons p rest => exact ⟨anc_snoc d h.1, h.2⟩

theorem chain_all_anc : ∀ (st : List NodePath) (c : NodePath), ChainOK st c →
    ∀ p ∈ st, Anc p c
  | [], _, _, p, hp => absurd hp (List.not_mem_nil p)
  | q :: rest, c, h, p, hp => by
    rcases List.mem_cons.1 hp with rfl | hp'
    · exact h.1
    · exact anc_trans (chain_all_anc rest q h.2 p hp') h.1

theorem stack_preserved (f : BinaryTreeNode → BinaryTreeNode)
    {t : BinaryTreeNode} {p c : NodePath} (h : Anc p c)
    {tk : NTok} {l r : BinaryTreeNode} (hg : getAt t p = .mk tk l r) :
    ∃ l' r', getAt (modifyAt f t c) p = .mk tk l' r' := by
  obtain ⟨d, q, rfl⟩ := h
  rw [getAt_modifyAt_anc f p d q t, hg]
  cases d
  · exact ⟨_, _, rfl⟩
  · exact ⟨_, _, rfl⟩

theorem modifyAt_modifyAt_self (f g : BinaryTreeNode → BinaryTreeNode) :
    ∀ (p : NodePath) (t : BinaryTreeNode),
      modifyAt f (modifyAt g t p) p = modifyAt (fun n => f (g n)) t p
  | [], t => by rw [modifyAt_nilPath, modifyAt_nilPath, modifyAt_nilPath]
  | d :: p, .nil => by
    rw [modifyAt_nilT g _ (by simp), modifyAt_nilT _ _ (by simp)]
    exact (modifyAt_nilT _ _ (by simp)).symm
  | d :: p, .mk tk l r => by
    cases d
    · exact congrArg (fun z => BinaryTreeNode.mk tk z r) (modifyAt_modifyAt_self f g p l)
    · exact congrArg (fun z => BinaryTreeNode.mk tk l z) (modifyAt_modifyAt_self f g p r)

theorem isOpTok_goodTok {t : Token} (h : isOpTok t = true) : goodTok (.sym t) = true := by
  simp [isOpTok] at h
  rcases h with (((h | h) | h) | h) | h <;> subst h <;> rfl

theorem goodTok_eqTok : goodTok eqTok = true := rfl

theorem treeOK_leaf (tk : NTok) : treeOK (.mk tk .nil .nil) = true := rfl

theorem insertLeftAt_getAt {t : BinaryTreeNode} {p : NodePath} (tk : NTok)
    {ctk : NTok} {cl cr : BinaryTreeNode} (hg : getAt t p = .mk ctk cl cr) :
    getAt (insertLeftAt t p tk) p = .mk ctk (.mk tk .nil .nil) cr := by
  simp only [insertLeftAt]
  rw [getAt_modifyAt_self _ p t ctk cl cr hg]

theorem insertRightAt_getAt {t : BinaryTreeNode} {p : NodePath} (tk : NTok)
    {ctk : NTok} {cl cr : BinaryTreeNode} (hg : getAt t p = .mk ctk cl cr) :
    getAt (insertRightAt t p tk) p = .mk ctk cl (.mk tk .nil .nil) := by
  simp only [insertRightAt]
  rw [getAt_modifyAt_self _ p t ctk cl cr hg]

theorem opUpdate_getAt {t : BinaryTreeNode} {c : NodePath} (s : Token)
    {ctk : NTok} {cl cr : BinaryTreeNode} (hg : getAt t c = .mk ctk cl cr) :
    getAt (insertRightAt (setTokenAt t c (.sym s)) c eqTok) c
      = .mk (.sym s) cl (.mk eqTok .nil .nil) := by
  simp only [insertRightAt, setTokenAt]
  rw [modifyAt_modifyAt_self, getAt_modifyAt_self _ c t ctk cl cr hg]

theorem stack_preserved_op (s : Token) {t : BinaryTreeNode} {p c : NodePath} (h : Anc p c)
    {tk : NTok} {l r : BinaryTreeNode} (hg : getAt t p = .mk tk l r) :
    ∃ l' r', getAt (insertRightAt (setTokenAt t c (.sym s)) c eqTok) p = .mk tk l' r' := by
  simp only [insertRightAt, setTokenAt]
  rw [modifyAt_modifyAt_self]
  exact stack_preserved _ h hg

theorem parseStep_inv (st st' : PState) (tk : Token)
    (h : StOK st) (hs : parseStep st tk = .ok st') : StOK st' := by
  obtain ⟨htree, ⟨ctk, cl, cr, hcg, hcgood⟩, hstack, hchain⟩ := h
  have hanc : ∀ p ∈ st.stack, Anc p st.cur := chain_all_anc st.stack st.cur hchain
  unfold parseStep at hs
  split at hs
  case isTrue h1 =>
    split at hs
    case h_1 heq =>
      injection hs with hs'
      subst hs'
      rw [hcg] at heq
      have hclnil : cl = .nil := heq
      subst hclnil
      refine ⟨?_, ?_, ?_, ?_⟩
      · refine treeOK_modifyAt _ rfl st.cur st.ast htree ?_
        intro tk0 l0 r0 hg0 ht0
        rw [hcg] at hg0
        injection hg0 with e1 e2 e3
        subst e1; subst e2; subst e3
        obtain ⟨_, hr, _⟩ := treeOK_split _ _ _ ht0
        exact treeOK_build _ _ _ (treeOK_leaf eqTok) hr
          (fun _ _ _ _ _ _ _ _ => hcgood)
      · refine ⟨eqTok, .nil, .nil, ?_, goodTok_eqTok⟩
        show getAt (insertLeftAt st.ast st.cur eqTok) (st.cur ++ [Dir.left])
          = BinaryTreeNode.mk eqTok .nil .nil
        rw [getAt_append, insertLeftAt_getAt eqTok hcg]
        rfl
      · intro p hp
        rcases List.mem_cons.1 hp with rfl | hp'
        · refine ⟨ctk, .mk eqTok .nil .nil, cr, ?_, hcgood⟩
          show getAt (insertLeftAt st.ast st.cur eqTok) st.cur
            = BinaryTreeNode.mk ctk (.mk eqTok .nil .nil) cr
          exact insertLeftAt_getAt eqTok hcg
        · obtain ⟨tkp, lp, rp, hgp, hgoodp⟩ := hstack p hp'
          obtain ⟨l', r', hg'⟩ := stack_preserved _ (hanc p hp') hgp
          exact ⟨tkp, l', r', hg', hgoodp⟩
      · exact ⟨anc_self_snoc st.cur Dir.left, hchain⟩
    case h_2 tk0 l0 r0 heq =>
      injection hs with hs'
      subst hs'
      refine ⟨?_, ?_, ?_, ?_⟩
      · refine treeOK_modifyAt _ rfl st.cur st.ast htree ?_
        intro tk1 l1 r1 hg1 ht1
        rw [hcg] at hg1
        injection hg1 with e1 e2 e3
        subst e1; subst e2; subst e3
        obtain ⟨hl, _, _⟩ := treeOK_split _ _ _ ht1
        exact treeOK_build _ _ _ hl (treeOK_leaf eqTok)
          (fun _ _ _ _ _ _ _ _ => hcgood)
      · refine ⟨eqTok, .nil, .nil, ?_, goodTok_eqTok⟩
        show getAt (insertRightAt st.ast st.cur eqTok) (st.cur ++ [Dir.right])
          = BinaryTreeNode.mk eqTok .nil .nil
        rw [getAt_append, insertRightAt_getAt eqTok hcg]
        rfl
      · intro p hp
        obtain ⟨tkp, lp, rp, hgp, hgoodp⟩ := hstack p hp
        obtain ⟨l', r', hg'⟩ := stack_preserved _ (hanc p hp) hgp
        exact ⟨tkp, l', r', hg', hgoodp⟩
      · exact chain_snoc Dir.right hchain
  case isFalse h1 =>
    split at hs
    case isTrue h2 =>
      injection hs with hs'
      subst hs'
      refine ⟨?_, ?_, ?_, ?_⟩
      · show treeOK (insertRightAt (setTokenAt st.ast st.cur (.sym tk)) st.cur eqTok) = true
        simp only [insertRightAt, setTokenAt]
        rw [modifyAt_modifyAt_self]
        refine treeOK_modifyAt _ rfl st.cur st.ast htree ?_
        intro tk1 l1 r1 hg1 ht1
        obtain ⟨hl, _, _⟩ := treeOK_split _ _ _ ht1
        exact treeOK_build (.sym tk) l1 (.mk eqTok .nil .nil) hl (treeOK_leaf _)
          (fun _ _ _ _ _ _ _ _ => isOpTok_goodTok h2)
      · refine ⟨eqTok, .nil, .nil, ?_, goodTok_eqTok⟩
        show getAt (insertRightAt (setTokenAt st.ast st.cur (.sym tk)) st.cur eqTok)
            (st.cur ++ [Dir.right]) = BinaryTreeNode.mk eqTok .nil .nil
        rw [getAt_append, opUpdate_getAt tk hcg]
        rfl
      · intro p hp
        obtain ⟨tkp, lp, rp, hgp, hgoodp⟩ := hstack p hp
        obtain ⟨l', r', hg'⟩ := stack_preserved_op tk (hanc p hp) hgp
        exact ⟨tkp, l', r', hg', hgoodp⟩
      · exact chain_snoc Dir.right hchain
    case isFalse h2 =>
      split at hs
      case isTrue h3 =>
        split at hs
        case h_1 =>
          injection hs with hs'
          subst hs'
          exact ⟨htree, ⟨ctk, cl, cr, hcg, hcgood⟩, hstack, hchain⟩
        case h_2 p rest heq =>
          injection hs with hs'
          subst hs'
          rw [heq] at hstack hchain
          refine ⟨htree, ?_, ?_, hchain.2⟩
          · exact hstack p (List.mem_cons_self p rest)
          · intro q hq
            exact hstack q (List.mem_cons_of_mem p hq)
      case isFalse h3 =>
        split at hs
        case isTrue h4 =>
          injection hs with hs'
          subst hs'
          refine ⟨?_, ?_, ?_, hchain⟩
          · refine treeOK_modifyAt _ rfl st.cur st.ast htree ?_
            intro tk1 l1 r1 hg1 ht1
            rw [hcg] at hg1
            injection hg1 with e1 e2 e3
            subst e1; subst e2; subst e3
            obtain ⟨_, hr, _⟩ := treeOK_split _ _ _ ht1
            exact treeOK_build _ _ _ (treeOK_leaf _) hr
              (fun _ _ _ _ _ _ _ _ => hcgood)
          · refine ⟨ctk, .mk (.sym tk) .nil .nil, cr, ?_, hcgood⟩
            show getAt (insertLeftAt st.ast st.cur (.sym tk)) st.cur
              = BinaryTreeNode.mk ctk (.mk (.sym tk) .nil .nil) cr
            exact insertLeftAt_getAt _ hcg
          · intro p hp
            obtain ⟨tkp, lp, rp, hgp, hgoodp⟩ := hstack p hp
            obtain ⟨l', r', hg'⟩ := stack_preserved _ (hanc p hp) hgp
            exact ⟨tkp, l', r', hg', hgoodp⟩
        case isFalse h4 =>
          split at hs
          case h_1 v heq =>
            injection hs with hs'
            subst hs'
            refine ⟨?_, ?_, ?_, hchain⟩
            · refine treeOK_modifyAt _ rfl st.cur st.ast htree ?_
              intro tk1 l1 r1 hg1 ht1
              rw [hcg] at hg1
              injection hg1 with e1 e2 e3
              subst e1; subst e2; subst e3
              obtain ⟨_, hr, _⟩ := treeOK_split _ _ _ ht1
              exact treeOK_build _ _ _ (treeOK_leaf _) hr
                (fun _ _ _ _ _ _ _ _ => hcgood)
            · refine ⟨ctk, .mk (.num v) .nil .nil, cr, ?_, hcgood⟩
              show getAt (insertLeftAt st.ast st.cur (.num v)) st.cur
                = BinaryTreeNode.mk ctk (.mk (.num v) .nil .nil) cr
              exact insertLeftAt_getAt _ hcg
            · intro p hp
              obtain ⟨tkp, lp, rp, hgp, hgoodp⟩ := hstack p hp
              obtain ⟨l', r', hg'⟩ := stack_preserved _ (hanc p hp) hgp
              exact ⟨tkp, l', r', hg', hgoodp⟩
          case h_2 => cases hs

theorem initState_ok : StOK initState :=
  ⟨rfl, ⟨eqTok, .nil, .nil, rfl, rfl⟩, fun p hp => absurd hp (List.not_mem_nil p), trivial⟩

theorem parseRun_inv : ∀ (lx : List Token) (st st' : PState),
    StOK st → parseRun st lx = .ok st' → StOK st'
  | [], st, st', h, hs => by
    injection hs with hs'
    subst hs'
    exact h
  | tk :: rest, st, st', h, hs => by
    unfold parseRun at hs
    split at hs
    case h_1 => cases hs
    case h_2 st1 heq => exact parseRun_inv rest st1 st' (parseStep_inv st st1 tk h heq) hs

theorem parseToks_treeOK (lx : List Token) (t : BinaryTreeNode)
    (h : parseToks lx = .ok t) : treeOK t = true := by
  unfold parseToks at h
  split at h
  case h_1 => cases h
  case h_2 st heq =>
    split at h
    case h_1 => cases h
    case h_2 =>
      injection h with h'
      subst h'
      exact (parseRun_inv lx initState st initState_ok heq).1

theorem parse_treeOK (s : List Char) (t : BinaryTreeNode)
    (h : parse s = .ok t) : treeOK t = true := by
  unfold parse at h
  split at h
  case h_1 => cases h
  case h_2 lx _ => exact parseToks_treeOK lx t h

theorem applyOp_ne_keyError (f : Frac → Frac → Frac) (a b : PyVal) (tk : NTok) :
    applyOp f a b ≠ .error (.keyError tk) := by
  cases a <;> cases b <;> simp [applyOp]
  split <;> simp

theorem eval_keyError : ∀ (t : BinaryTreeNode) (x : List Frac) (tk : NTok),
    treeOK t = true → evaluate t x = .error (.keyError tk) → tk = eqTok := by
  intro t
  induction t with
  | nil =>
    intro x tk _ he
    simp [evaluate] at he
  | mk tk0 l r ihl ihr =>
    intro x tk ht he
    obtain ⟨hl, hr, hcond⟩ := treeOK_split _ _ _ ht
    unfold evaluate at he
    split at he
    case h_1 =>
      split at he
      case h_1 hlk =>
        injection he with e1
        injection e1 with e3
        subst e3
        have hg : goodTok tk0 = true := hcond _ _ _ _ _ _ rfl rfl
        unfold goodTok at hg
        rw [hlk] at hg
        simpa using hg
      case h_2 f hlk =>
        split at he
        case h_1 e heL =>
          injection he with e1
          subst e1
          exact ihl x tk hl heL
        case h_2 a heL =>
          split at he
          case h_1 e heR =>
            injection he with e1
            subst e1
            exact ihr x tk hr heR
          case h_2 b heR => exact absurd he (applyOp_ne_keyError f a b tk)
    case h_2 => exact ihl x tk hl he
    case h_3 =>
      cases tk0 with
      | num v => cases he
      | sym s =>
        replace he : (if s = ['='] then Except.error EvalErr.missingOperand
            else if s = ['x'] then Except.ok (PyVal.arr x)
            else Except.ok (PyVal.str s)) = Except.error (EvalErr.keyError tk) := he
        by_cases hse : s = ['=']
        · rw [if_pos hse] at he
          cases he
        · rw [if_neg hse] at he
          by_cases hsx : s = ['x']
          · rw [if_pos hsx] at he
            cases he
          · rw [if_neg hsx] at he
            cases he

theorem opIndices_nilRes (p : Token → Bool) : ∀ (lx : List Token) (i : Nat),
    (∀ t ∈ lx, p t = false) → opIndices p lx i = []
  | [], _, _ => rfl
  | t :: ts, i, h => by
    unfold opIndices
    rw [h t (List.mem_cons_self t ts)]
    simp only [Bool.false_eq_true, if_false]
    exact opIndices_nilRes p ts (i + 1) (fun u hu => h u (List.mem_cons_of_mem t hu))

theorem preprocess_noOps (lx : List Token) (h : ∀ t ∈ lx, isOpTok t = false) :
    preprocess lx = .ok lx := by
  have hsplit : ∀ t ∈ lx, ¬t = ['+'] ∧ ¬t = ['-'] ∧ ¬t = ['*'] ∧ ¬t = ['/'] ∧ ¬t = ['^'] := by
    intro t ht
    have := h t ht
    simp [isOpTok] at this
    tauto
  have hp : ∀ t ∈ lx, isPowTok t = false := by
    intro t ht
    simp [isPowTok]
    exact (hsplit t ht).2.2.2.2
  have hm : ∀ t ∈ lx, isMulTok t = false := by
    intro t ht
    simp [isMulTok]
    exact ⟨(hsplit t ht).2.2.1, (hsplit t ht).2.2.2.1⟩
  have ha : ∀ t ∈ lx, isAddTok t = false := by
    intro t ht
    simp [isAddTok]
    exact ⟨(hsplit t ht).1, (hsplit t ht).2.1⟩
  have h1 : runPass isPowTok lx = .ok lx := by
    unfold runPass
    rw [opIndices_nilRes _ lx 0 hp]
    rfl
  have h2 : runPass isMulTok lx = .ok lx := by
    unfold runPass
    rw [opIndices_nilRes _ lx 0 hm]
    rfl
  have h3 : runPass isAddTok lx = .ok lx := by
    unfold runPass
    rw [opIndices_nilRes _ lx 0 ha]
    rfl
  simp only [preprocess, h1, h2, h3]

theorem splitGo_tokens : ∀ (cs acc : List Char),
    (∀ c ∈ cs, c ≠ ' ') → (∀ c ∈ acc, c ≠ ' ') →
    ∀ tok ∈ splitGo cs acc, tok ≠ [] ∧ ∀ c ∈ tok, c ≠ ' '
  | [], acc, _, hacc, tok, htok => by
    unfold splitGo at htok
    by_cases he : acc.isEmpty
    · rw [if_pos he] at htok
      cases htok
    · rw [if_neg he] at htok
      rw [List.mem_singleton] at htok
      subst htok
      refine ⟨?_, ?_⟩
      · simp only [ne_eq, List.reverse_eq_nil_iff]
        intro hn
        rw [hn] at he
        exact he rfl
      · intro c hc
        exact hacc c (List.mem_reverse.1 hc)
  | ch :: cs, acc, hcs, hacc, tok, htok => by
    unfold splitGo at htok
    by_cases hd : isDelimChar ch
    · rw [if_pos hd] at htok
      rcases List.mem_append.1 htok with h1 | h2
      · by_cases he : acc.isEmpty
        · rw [if_pos he] at h1
          cases h1
        · rw [if_neg he] at h1
          rw [List.mem_singleton] at h1
          subst h1
          refine ⟨?_, ?_⟩
          · simp only [ne_eq, List.reverse_eq_nil_iff]
            intro hn
            rw [hn] at he
            exact he rfl
          · intro c hc
            exact hacc c (List.mem_reverse.1 hc)
      · rcases List.mem_cons.1 h2 with rfl | h3
        · refine ⟨by simp, ?_⟩
          intro c hc
          rw [List.mem_singleton] at hc
          subst hc
          exact hcs c (List.mem_cons_self _ _)
        · exact splitGo_tokens cs [] (fun c hc => hcs c (List.mem_cons_of_mem _ hc))
            (fun c hc => absurd hc (List.not_mem_nil c)) tok h3
    · rw [if_neg hd] at htok
      refine splitGo_tokens cs (ch :: acc) (fun c hc => hcs c (List.mem_cons_of_mem _ hc))
        ?_ tok htok
      intro c hc
      rcases List.mem_cons.1 hc with rfl | h4
      · exact hcs c (List.mem_cons_self _ _)
      · exact hacc c h4

theorem tockenize_no_space (s : List Char) :
    ∀ tok ∈ tockenize s, tok ≠ [] ∧ ∀ c ∈ tok, c ≠ ' ' := by
  refine splitGo_tokens _ [] ?_ (fun c hc => absurd hc (List.not_mem_nil c))
  intro c hc
  have := List.mem_filter.1 hc
  simpa using this.2

theorem evaluate_node2 (tk tkl tkr : NTok) (a b c d : BinaryTreeNode) (x : List Frac) :
    evaluate (.mk tk (.mk tkl a b) (.mk tkr c d)) x
      = (match lookupOp tk with
         | none => .error (.keyError tk)
         | some f =>
           match evaluate (.mk tkl a b) x with
           | .error e => .error e
           | .ok va =>
             match evaluate (.mk tkr c d) x with
             | .error e => .error e
             | .ok vb => applyOp f va vb) := rfl

theorem evaluateS_node2 (tk tkl tkr : NTok) (a b c d : BinaryTreeNode) (x : List Frac) :
    evaluateS (.mk tk (.mk tkl a b) (.mk tkr c d)) x
      = (match lookupOp tk with
         | none => (.error (.keyError tk), .mk tk (.mk tkl a b) (.mk tkr c d))
         | some f =>
           (match (evaluateS (.mk tkl a b) x).1 with
            | .error e => .error e
            | .ok va =>
              match (evaluateS (.mk tkr c d) x).1 with
              | .error e => .error e
              | .ok vb => applyOp f va vb,
            .mk tk (evaluateS (.mk tkl a b) x).2 (evaluateS (.mk tkr c d) x).2)) := rfl

theorem evaluateS_eq : ∀ (t : BinaryTreeNode) (x : List Frac),
    evaluateS t x = (evaluate t x, t) := by
  intro t
  induction t with
  | nil => intro x; rfl
  | mk tk l r ihl ihr =>
    intro x
    cases l with
    | nil => rfl
    | mk tkl a b =>
      cases r with
      | nil =>
        have h := ihl x
        exact (by rw [h] :
          ((evaluateS (BinaryTreeNode.mk tkl a b) x).1,
            BinaryTreeNode.mk tk (evaluateS (BinaryTreeNode.mk tkl a b) x).2 BinaryTreeNode.nil)
          = (evaluate (BinaryTreeNode.mk tkl a b) x,
             BinaryTreeNode.mk tk (BinaryTreeNode.mk tkl a b) BinaryTreeNode.nil))
      | mk tkr c d =>
        rw [evaluate_node2, evaluateS_node2, ihl x, ihr x]
        cases lookupOp tk with
        | none => rfl
        | some f =>
          cases evaluate (BinaryTreeNode.mk tkl a b) x with
          | error e => rfl
          | ok va =>
            cases evaluate (BinaryTreeNode.mk tkr c d) x with
            | error e => rfl
            | ok vb => rfl

/-- C1: the claim states that every well-formed formula (balanced
parentheses, only x / operators / numeric literals, every operator with two
operands) parses without error.  The code violates it: "1+(2+3)" is
well-formed, yet parse raises SyntaxError("Too few closing parantheses") —
during the plus/minus pass the second "+" is looked up at recorded index plus 2*i,
which lands on "3" because the first insertion placed its closing
parenthesis after the nested "+".  This theorem evaluates the embedded
parser at the failing input. -/
theorem c1_wellformed_input_rejected :
    parse "1+(2+3)".toList = .error ParseErr.tooFewClosing := rfl

/-- C2: the claimed +2*i offset invariant fails on the plus/minus pass of
"1+(2+3)": the recorded "+" indices are [1, 4]; after the first wrapping
the second "+" sits at index 5, not 4 + 2*1 = 6 — position 6 holds "3",
so _insertParanthesesAround is invoked on a non-operator token and the
pass aborts with the too-few-closing error. -/
theorem c2_offset_invariant_fails :
    opIndices isAddTok (tockenize "1+(2+3)".toList) 0 = [1, 4] ∧
    insertParanthesesAround (tockenize "1+(2+3)".toList) 1
      = .ok [['('], ['1'], ['+'], ['('], ['2'], ['+'], ['3'], [')'], [')']] ∧
    [['('], ['1'], ['+'], ['('], ['2'], ['+'], ['3'], [')'], [')']].getD 5 [] = ['+'] ∧
    [['('], ['1'], ['+'], ['('], ['2'], ['+'], ['3'], [')'], [')']].getD (4 + 2 * 1) [] = ['3'] ∧
    insertParanthesesAround [['('], ['1'], ['+'], ['('], ['2'], ['+'], ['3'], [')'], [')']]
      (4 + 2 * 1) = .error ParseErr.tooFewClosing :=
  ⟨rfl, rfl, rfl, rfl, rfl⟩

/-- C3 counterexample: parse("3(") succeeds, and evaluating the resulting
tree raises the KeyError of the ops["="] lookup — an error other than
missing-operand, contradicting the claim. -/
theorem c3_counter_keyError :
    parse "3(".toList
      = .ok (.mk eqTok (.mk (.num ⟨3, 1⟩) .nil .nil) (.mk eqTok .nil .nil)) ∧
    evaluate (.mk eqTok (.mk (.num ⟨3, 1⟩) .nil .nil) (.mk eqTok .nil .nil)) [⟨1, 1⟩]
      = .error (.keyError eqTok) :=
  ⟨rfl, rfl⟩

/-- C3 amended: evaluation of a successfully parsed tree can also fail with
an operator-table lookup error or an elementwise type error, but any lookup
failure is always on the placeholder token "=" (a group node that has both
children but never received an operator). -/
theorem c3_amended_keyError_only_eq (s : List Char) (t : BinaryTreeNode)
    (x : List Frac) (tk : NTok)
    (hp : parse s = .ok t) (he : evaluate t x = .error (.keyError tk)) : tk = eqTok :=
  eval_keyError t x tk (parse_treeOK s t hp) he

/-- C3 witness: the amended theorem applied to the parse of "3(". -/
theorem c3_amended_witness : eqTok = eqTok :=
  c3_amended_keyError_only_eq "3(".toList
    (.mk eqTok (.mk (.num ⟨3, 1⟩) .nil .nil) (.mk eqTok .nil .nil)) [] eqTok rfl rfl

/-- C4 counterexample: the token sequence of ")" has more closing than
opening parentheses, yet parse succeeds and returns the bare root tree —
a stray ")" with an empty stack is a structural no-op. -/
theorem c4_counter_unbalanced_ok :
    parse ")".toList = .ok (.mk eqTok .nil .nil) := rfl

/-- C4 amended: parse does not reject every unbalanced input.  A sequence
with excess closing parentheses can succeed ("3)"), a sequence with excess
opening parentheses can succeed ("2+3(" — the extra "(" becomes a right
group without a stack push); an unbalanced error is raised only when a
normalization scan fails or the stack is nonempty at end of input, as for
"(3". -/
theorem c4_amended_behavior :
    parse "3)".toList = .ok (.mk eqTok (.mk (.num ⟨3, 1⟩) .nil .nil) .nil) ∧
    parse "2+3(".toList
      = .ok (.mk eqTok
          (.mk (.sym ['+'])
            (.mk (.num ⟨2, 1⟩) .nil .nil)
            (.mk eqTok (.mk (.num ⟨3, 1⟩) .nil .nil) .nil))
          (.mk eqTok .nil .nil)) ∧
    parse "(3".toList = .error ParseErr.tooFewClosing :=
  ⟨rfl, rfl, rfl⟩

/-- C5 counterexample: normalization is not idempotent — re-normalizing the
normalized stream of "3+x" wraps the "+" in a second pair of parentheses. -/
theorem c5_counter_not_idempotent :
    preprocess [['3'], ['+'], ['x']] = .ok [['('], ['3'], ['+'], ['x'], [')']] ∧
    preprocess [['('], ['3'], ['+'], ['x'], [')']]
      = .ok [['('], ['('], ['3'], ['+'], ['x'], [')'], [')']] ∧
    [['('], ['3'], ['+'], ['x'], [')']]
      ≠ [['('], ['('], ['3'], ['+'], ['x'], [')'], [')']] :=
  ⟨rfl, rfl, by decide⟩

/-- C5 amended: normalization is not idempotent on its own output — the
normalized stream of "3+x" re-normalizes to a strictly different,
doubly-wrapped stream; a token sequence containing no operator tokens is
returned unchanged by normalization and is therefore a fixed point of
repeated normalization.  (Being operator-free is sufficient, not
necessary: some operator-containing sequences, such as the tokens of
"+x)(", are also left unchanged because both scans of the single wrap
exit without inserting.) -/
theorem c5_amended_noOps_identity :
    preprocess [['('], ['3'], ['+'], ['x'], [')']]
      = .ok [['('], ['('], ['3'], ['+'], ['x'], [')'], [')']] ∧
    preprocess [['('], ['3'], ['+'], ['x'], [')']]
      ≠ .ok [['('], ['3'], ['+'], ['x'], [')']] ∧
    ∀ (lx : List Token), (∀ t ∈ lx, isOpTok t = false) → preprocess lx = .ok lx := by
  refine ⟨rfl, ?_, preprocess_noOps⟩
  intro h
  have h2 : [['('], ['('], ['3'], ['+'], ['x'], [')'], [')']]
      = [['('], ['3'], ['+'], ['x'], [')']] := by
    have h1 : (Except.ok [['('], ['('], ['3'], ['+'], ['x'], [')'], [')']]
        : Except ParseErr (List Token)) = .ok [['('], ['3'], ['+'], ['x'], [')']] :=
      (rfl : preprocess [['('], ['3'], ['+'], ['x'], [')']]
        = .ok [['('], ['('], ['3'], ['+'], ['x'], [')'], [')']]).symm.trans h
    injection h1
  exact absurd h2 (by decide)

/-- C5 witness: the fixed-point part of the amended theorem applied to the
operator-free sequence of "(x)". -/
theorem c5_amended_witness : preprocess [['('], ['x'], [')']] = .ok [['('], ['x'], [')']] :=
  c5_amended_noOps_identity.2.2 [['('], ['x'], [')']] (by decide)

/-- C6 counterexample: only the space character is removed before
splitting; a tab survives inside a token, so tokens can contain whitespace,
contradicting the claim. -/
theorem c6_counter_tab_kept :
    tockenize ('3' :: '\t' :: '+' :: ' ' :: ['2']) = [['3', '\t'], ['+'], ['2']] ∧
    ('\t').isWhitespace = true :=
  ⟨rfl, rfl⟩

/-- C6 amended: tokenization removes every space character (U+0020) before
splitting — no token contains a space, and every produced token is a
non-empty delimiter or fragment in left-to-right order; other whitespace
characters are kept. -/
theorem c6_amended_no_space_tokens (s : List Char) (tok : Token)
    (h : tok ∈ tockenize s) : tok ≠ [] ∧ ∀ c ∈ tok, c ≠ ' ' :=
  tockenize_no_space s tok h

/-- C6 witness: the amended theorem applied to a token of "3 + 4". -/
theorem c6_amended_witness : (['3'] : Token) ≠ [] ∧ ∀ c ∈ (['3'] : Token), c ≠ ' ' :=
  c6_amended_no_space_tokens "3 + 4".toList ['3'] (by decide)

/-- C7: the two unbalanced inputs fail on the claimed sides — too many
closing parentheses for "(3 + 2))^2" (backward scan of the ^ pass never
returns to balance), too few for "2^((2)" (forward scan exhausts). -/
theorem c7_mismatched_sides :
    parse "(3 + 2))^2".toList = .error ParseErr.tooManyClosing ∧
    parse "2^((2)".toList = .error ParseErr.tooFewClosing :=
  ⟨rfl, rfl⟩

/-- C8: "3 + x * 2" parses into a tree whose product is nested below the
sum, and evaluating it at [1,2,3,4,5] yields [5,7,9,11,13] — so * binds
tighter than + under the parenthesis-insertion scheme. -/
theorem c8_precedence_example :
    parse "3 + x * 2".toList = .ok t8tree ∧
    evaluate t8tree [1, 2, 3, 4, 5] = .ok (.arr [5, 7, 9, 11, 13]) :=
  ⟨rfl, rfl⟩

/-- C9: evaluation is a pure function of the tree and the samples — the
state-threaded evaluator returns the tree unchanged, its result agrees with
the pure evaluator, and re-evaluating the returned tree against any other
sample list gives what a first evaluation would. -/
theorem c9_evaluate_pure (t : BinaryTreeNode) (x y : List Frac) :
    (evaluateS t x).2 = t ∧ (evaluateS t x).1 = evaluate t x ∧
    evaluate ((evaluateS t x).2) y = evaluate t y := by
  rw [evaluateS_eq]
  exact ⟨rfl, rfl, rfl⟩

/-- C9 witness: purity at a concrete tree and two sample lists. -/
theorem c9_witness :
    (evaluateS (.mk eqTok (.mk (.num ⟨7, 1⟩) .nil .nil) .nil) [⟨2, 1⟩]).2
      = .mk eqTok (.mk (.num ⟨7, 1⟩) .nil .nil) .nil ∧
    (evaluateS (.mk eqTok (.mk (.num ⟨7, 1⟩) .nil .nil) .nil) [⟨2, 1⟩]).1
      = evaluate (.mk eqTok (.mk (.num ⟨7, 1⟩) .nil .nil) .nil) [⟨2, 1⟩] ∧
    evaluate ((evaluateS (.mk eqTok (.mk (.num ⟨7, 1⟩) .nil .nil) .nil) [⟨2, 1⟩]).2) [⟨3, 1⟩]
      = evaluate (.mk eqTok (.mk (.num ⟨7, 1⟩) .nil .nil) .nil) [⟨3, 1⟩] :=
  c9_evaluate_pure (.mk eqTok (.mk (.num ⟨7, 1⟩) .nil .nil) .nil) [⟨2, 1⟩] [⟨3, 1⟩]

/-- C10: parsing the empty string succeeds with the bare root placeholder
(no children), and evaluating that tree at any sample list raises
ValueError("Missing Operand"). -/
theorem c10_empty_parse :
    parse "".toList = .ok (.mk eqTok .nil .nil) ∧
    ∀ x : List Frac, evaluate (.mk eqTok .nil .nil) x = .error .missingOperand :=
  ⟨rfl, fun _ => rfl⟩
